import Mathlib

/-!
Formal model of the WTime integration's DST transition locator and derived
sensors (`custom_components/wtime/binary_sensor.py`).

Modelling conventions:
* An instant is a local wall-clock time measured in integer microseconds
  (`ℤ`).  Python `datetime` arithmetic on aware datetimes of a fixed zone
  (`dt + timedelta`, `dt - dt`) is plain wall-clock arithmetic, so every
  `timedelta` in the source becomes integer microseconds.
* The zone's UTC-offset probe `_offset` (`ts.utcoffset() or timedelta(0)`)
  is an arbitrary function `off : ℤ → ℤ` (offset in microseconds).
* The DST probe `ts.dst()` is an arbitrary function `ℤ → Option ℤ`.
* `timedelta / 2` in Python divides the total microseconds by 2 rounding
  half to even (`_divide_and_round`); `half_td` reproduces this.
* `dt.replace(microsecond=0)`, `dt.second`, `dt.replace(second=0,
  microsecond=0)` act on wall-clock fields; with positive divisors Python's
  floor `//`/`%` agree with `Int.ediv`/`Int.emod` (the `/`/`%` of `ℤ` here).
-/

namespace WTime

/-- Microseconds per second. -/
def SEC_US : ℤ := 1000000

/-- Microseconds per minute. -/
def MIN_US : ℤ := 60000000

/-- Microseconds per hour. -/
def HOUR_US : ℤ := 3600000000

/-- Microseconds per day (`timedelta(days=1)`). -/
def DAY_US : ℤ := 86400000000

/-- The `microsecond` field of a wall-clock instant. -/
def microsecond_of (t : ℤ) : ℤ := t % SEC_US

/-- The `second` field of a wall-clock instant. -/
def second_of (t : ℤ) : ℤ := (t / SEC_US) % 60

/-- Python `dt.replace(microsecond=0)`: zero the sub-second part. -/
def floor_to_second (t : ℤ) : ℤ := t - t % SEC_US

/-- Python `dt.replace(second=0, microsecond=0)`: zero the sub-minute part. -/
def floor_to_minute (t : ℤ) : ℤ := t - t % MIN_US

/-- Python `timedelta / 2`: halve a duration, rounding half to even
(`datetime._divide_and_round`). -/
def half_td (d : ℤ) : ℤ :=
  if d % 2 = 0 then d / 2
  else if (d / 2) % 2 = 0 then d / 2 else d / 2 + 1

/-- Final minute-normalisation shared by both searches
(`binary_sensor.py` lines 85-90 and 135-138):
truncate microseconds, and if the seconds field is non-zero advance to the
next minute boundary zeroing seconds. -/
def round_to_minute (x : ℤ) : ℤ :=
  let change := floor_to_second x
  if second_of change ≠ 0 then floor_to_minute (change + MIN_US) else change

/-- Source `_is_dst`: true iff `ts.dst()` is non-None and non-zero. -/
def is_dst (dstF : ℤ → Option ℤ) (ts : ℤ) : Bool :=
  match dstF ts with
  | none => false
  | some off => off != 0

/-- Coarse day scan of `_find_transition_forward` (lines 46-53): step a day
at a time, returning the first day-step whose offset differs from `base`,
or `none` after `max_days` steps. -/
def day_scan_forward (off : ℤ → ℤ) (base : ℤ) : ℕ → ℤ → Option ℤ
  | 0, _ => none
  | n + 1, cursor =>
    if off (cursor + DAY_US) ≠ base then some (cursor + DAY_US)
    else day_scan_forward off base n (cursor + DAY_US)

/-- Coarse day scan of `_find_transition_backward` (lines 99-106). -/
def day_scan_backward (off : ℤ → ℤ) (base : ℤ) : ℕ → ℤ → Option ℤ
  | 0, _ => none
  | n + 1, cursor =>
    if off (cursor - DAY_US) ≠ base then some (cursor - DAY_US)
    else day_scan_backward off base n (cursor - DAY_US)

/-- Hour refinement of the forward search (lines 59-67): a `for _ in
range(24)` loop that halves the bracket, keeping the side whose offset
still equals `base` at the low end, and breaks once the bracket is at most
one hour wide.  The break test runs after each update. -/
def hour_refine_forward (off : ℤ → ℤ) (base : ℤ) : ℕ → ℤ → ℤ → ℤ × ℤ
  | 0, low, high => (low, high)
  | n + 1, low, high =>
    let mid := low + half_td (high - low)
    let p := if off mid = base then (mid, high) else (low, mid)
    if p.2 - p.1 ≤ HOUR_US then p else hour_refine_forward off base n p.1 p.2

/-- Forward-direction `while (high - low) > limit` bisection (minute loop,
lines 70-75, with `limit` one minute; second loop, lines 78-83, with
`limit` one second).  When the probed midpoint still has the base offset
the low end moves up, otherwise the high end moves down. -/
def refine_forward (off : ℤ → ℤ) (base limit : ℤ) (hl : 1 ≤ limit)
    (low high : ℤ) : ℤ × ℤ :=
  if h : limit < high - low then
    if off (low + half_td (high - low)) = base then
      refine_forward off base limit hl (low + half_td (high - low)) high
    else
      refine_forward off base limit hl low (low + half_td (high - low))
  else (low, high)
termination_by (high - low).toNat
decreasing_by
· have h2 : 2 ≤ high - low := by omega
  have ha : 1 ≤ half_td (high - low) ∧ half_td (high - low) ≤ high - low - 1 := by
    unfold half_td; split
    · omega
    · split <;> omega
  omega
· have h2 : 2 ≤ high - low := by omega
  have ha : 1 ≤ half_td (high - low) ∧ half_td (high - low) ≤ high - low - 1 := by
    unfold half_td; split
    · omega
    · split <;> omega
  omega

/-- Backward-direction `while (high - low) > limit` bisection (hour loop,
lines 114-119; minute loop, lines 121-126; second loop, lines 128-133).
Here the update is inverted: when the probed midpoint has the base offset
the high end moves down. -/
def refine_backward (off : ℤ → ℤ) (base limit : ℤ) (hl : 1 ≤ limit)
    (low high : ℤ) : ℤ × ℤ :=
  if h : limit < high - low then
    if off (low + half_td (high - low)) = base then
      refine_backward off base limit hl low (low + half_td (high - low))
    else
      refine_backward off base limit hl (low + half_td (high - low)) high
  else (low, high)
termination_by (high - low).toNat
decreasing_by
· have h2 : 2 ≤ high - low := by omega
  have ha : 1 ≤ half_td (high - low) ∧ half_td (high - low) ≤ high - low - 1 := by
    unfold half_td; split
    · omega
    · split <;> omega
  omega
· have h2 : 2 ≤ high - low := by omega
  have ha : 1 ≤ half_td (high - low) ∧ half_td (high - low) ≤ high - low - 1 := by
    unfold half_td; split
    · omega
    · split <;> omega
  omega

theorem min_us_one_le : (1:ℤ) ≤ MIN_US := by decide

theorem sec_us_one_le : (1:ℤ) ≤ SEC_US := by decide

theorem hour_us_one_le : (1:ℤ) ≤ HOUR_US := by decide

/-- Source `_find_transition_forward(start, max_days=400)`: day scan then
hour/minute/second refinement against the base offset at `start`, returning
the refined upper bound normalised to a minute boundary. -/
def find_transition_forward (off : ℤ → ℤ) (start : ℤ) (maxDays : ℕ := 400) :
    Option ℤ :=
  let base := off start
  match day_scan_forward off base maxDays start with
  | none => none
  | some day_cursor =>
    let p1 := hour_refine_forward off base 24 (day_cursor - DAY_US) day_cursor
    let p2 := refine_forward off base MIN_US min_us_one_le p1.1 p1.2
    let p3 := refine_forward off base SEC_US sec_us_one_le p2.1 p2.2
    some (round_to_minute p3.2)

/-- Source `_find_transition_backward(start, max_days=400)`: backward day scan
then hour/minute/second refinement, returning the refined lower bound
normalised to a minute boundary. -/
def find_transition_backward (off : ℤ → ℤ) (start : ℤ) (maxDays : ℕ := 400) :
    Option ℤ :=
  let base := off start
  match day_scan_backward off base maxDays start with
  | none => none
  | some day_cursor =>
    let p1 := refine_backward off base HOUR_US hour_us_one_le day_cursor (day_cursor + DAY_US)
    let p2 := refine_backward off base MIN_US min_us_one_le p1.1 p1.2
    let p3 := refine_backward off base SEC_US sec_us_one_le p2.1 p2.2
    some (round_to_minute p3.1)

/-- The attribute record published by `WTimeDSTBinarySensor._recalc_and_write`
(timestamps kept as instants here; `serialize_dt` models their rendering). -/
structure DstAttrs where
  dst_in_effect : Bool
  season_start : Option ℤ
  season_end : Option ℤ
  next_start : Option ℤ
  next_end : Option ℤ
  next_change : Option ℤ
  next_state : Option String

/-- The `next_state` attribute: `"on" if (next_is_dst is True) else ("off"
if next_is_dst is False else None)` (line 266). -/
def next_state_label : Option Bool → Option String
  | some true => some "on"
  | some false => some "off"
  | none => none

/-- Source `WTimeDSTBinarySensor._recalc_and_write` (lines 195-267), as a pure
function of the offset probe, the DST probe and the current instant.  The
Python `if season_end`/`if next_start is not None` guards become matches on
the options; in the in-DST branch both arms of the `prev_is_dst` test
assign `season_start = prev_change`. -/
def recalc_and_write (off : ℤ → ℤ) (dstF : ℤ → Option ℤ) (now : ℤ) : DstAttrs :=
  let is_dst_now := is_dst dstF now
  let prev_change := find_transition_backward off now
  let next_change := find_transition_forward off now
  let next_is_dst := next_change.map (fun ts => is_dst dstF (ts + MIN_US))
  let prev_is_dst := prev_change.map (fun ts => is_dst dstF (ts - MIN_US))
  if is_dst_now then
    let season_start := prev_change
    let season_end := next_change
    let next_start := match season_end with
      | some se => find_transition_forward off (se + MIN_US)
      | none => none
    let next_end := match next_start with
      | some ns => find_transition_forward off (ns + MIN_US)
      | none => none
    { dst_in_effect := is_dst_now, season_start := season_start,
      season_end := season_end, next_start := next_start,
      next_end := next_end, next_change := next_change,
      next_state := next_state_label next_is_dst }
  else
    let next_start := if next_is_dst = some true then next_change else none
    let next_end := match next_start with
      | some ns => find_transition_forward off (ns + MIN_US)
      | none => none
    let seasons := if prev_is_dst = some true then
        match prev_change with
        | some pc =>
          (find_transition_backward off (pc - MIN_US), some pc)
        | none => (none, none)
      else (none, none)
    { dst_in_effect := is_dst_now, season_start := seasons.1,
      season_end := seasons.2, next_start := next_start,
      next_end := next_end, next_change := next_change,
      next_state := next_state_label next_is_dst }

/-- Two-digit zero-padded rendering (`%02d`) of a non-negative field. -/
def two_digits (n : ℕ) : String :=
  if n < 10 then "0" ++ toString n else toString n

/-- Four-digit zero-padded rendering (`%04d`) of the year. -/
def four_digits (n : ℤ) : String :=
  if 0 ≤ n ∧ n < 10 then "000" ++ toString n
  else if 0 ≤ n ∧ n < 100 then "00" ++ toString n
  else if 0 ≤ n ∧ n < 1000 then "0" ++ toString n
  else toString n

/-- Six-digit zero-padded rendering (`%06d`) of a microsecond field. -/
def six_digits (n : ℕ) : String :=
  if n < 10 then "00000" ++ toString n
  else if n < 100 then "0000" ++ toString n
  else if n < 1000 then "000" ++ toString n
  else if n < 10000 then "00" ++ toString n
  else if n < 100000 then "0" ++ toString n
  else toString n

/-- Proleptic-Gregorian civil date (year, month, day) of a day number
relative to 1970-01-01, as computed by Python's `datetime` calendar. -/
def civil_from_days (z0 : ℤ) : ℤ × ℤ × ℤ :=
  let z := z0 + 719468
  let era := z / 146097
  let doe := z - era * 146097
  let yoe := (doe - doe / 1460 + doe / 36524 - doe / 146096) / 365
  let y := yoe + era * 400
  let doy := doe - (365 * yoe + yoe / 4 - yoe / 100)
  let mp := (5 * doy + 2) / 153
  let d := doy - (153 * mp + 2) / 5 + 1
  let m := mp + (if mp < 10 then 3 else -9)
  (y + (if m ≤ 2 then 1 else 0), m, d)

/-- Rendering of an aware datetime's UTC offset inside `isoformat()`:
sign, hours and minutes, with seconds / microseconds appended only when
the offset is not a whole number of minutes / seconds. -/
def utcoffset_str (o : ℤ) : String :=
  let oa := o.natAbs
  (if o < 0 then "-" else "+") ++ two_digits (oa / 3600000000) ++ ":" ++
    two_digits (oa / 60000000 % 60) ++
    (if oa % 60000000 ≠ 0 then ":" ++ two_digits (oa / 1000000 % 60) else "") ++
    (if oa % 1000000 ≠ 0 then "." ++ six_digits (oa % 1000000) else "")

/-- Python `ts.isoformat(timespec="minutes")` on an aware local datetime: the
date, a `T`, hour and minute (sub-minute fields dropped by the timespec),
and the UTC offset at `ts`. -/
def iso_minutes (off : ℤ → ℤ) (t : ℤ) : String :=
  let m := t / MIN_US
  let ymd := civil_from_days (m / 1440)
  four_digits ymd.1 ++ "-" ++ two_digits ymd.2.1.toNat ++ "-" ++
    two_digits ymd.2.2.toNat ++ "T" ++ two_digits ((m / 60) % 24).toNat ++
    ":" ++ two_digits (m % 60).toNat ++ utcoffset_str (off t)

/-- Source `WTimeDSTBinarySensor._serialize_dt` (lines 189-193): `None` maps to
`None`, otherwise the local ISO string with minute timespec. -/
def serialize_dt (off : ℤ → ℤ) (ts : Option ℤ) : Option String :=
  match ts with
  | none => none
  | some t => some (iso_minutes off t)

/-- Cost-instrumented `day_scan_forward`: same scan, also counting the
number of offset evaluations performed. -/
def day_scan_forward_cost (off : ℤ → ℤ) (base : ℤ) : ℕ → ℤ → Option ℤ × ℕ
  | 0, _ => (none, 0)
  | n + 1, cursor =>
    if off (cursor + DAY_US) ≠ base then (some (cursor + DAY_US), 1)
    else
      let r := day_scan_forward_cost off base n (cursor + DAY_US)
      (r.1, r.2 + 1)

/-- Cost-instrumented `day_scan_backward`. -/
def day_scan_backward_cost (off : ℤ → ℤ) (base : ℤ) : ℕ → ℤ → Option ℤ × ℕ
  | 0, _ => (none, 0)
  | n + 1, cursor =>
    if off (cursor - DAY_US) ≠ base then (some (cursor - DAY_US), 1)
    else
      let r := day_scan_backward_cost off base n (cursor - DAY_US)
      (r.1, r.2 + 1)

/-- Cost-instrumented `hour_refine_forward`. -/
def hour_refine_forward_cost (off : ℤ → ℤ) (base : ℤ) : ℕ → ℤ → ℤ → (ℤ × ℤ) × ℕ
  | 0, low, high => ((low, high), 0)
  | n + 1, low, high =>
    let mid := low + half_td (high - low)
    let p := if off mid = base then (mid, high) else (low, mid)
    if p.2 - p.1 ≤ HOUR_US then (p, 1)
    else
      let r := hour_refine_forward_cost off base n p.1 p.2
      (r.1, r.2 + 1)

/-- Cost-instrumented `refine_forward`. -/
def refine_forward_cost (off : ℤ → ℤ) (base limit : ℤ) (hl : 1 ≤ limit)
    (low high : ℤ) : (ℤ × ℤ) × ℕ :=
  if h : limit < high - low then
    if off (low + half_td (high - low)) = base then
      let r := refine_forward_cost off base limit hl (low + half_td (high - low)) high
      (r.1, r.2 + 1)
    else
      let r := refine_forward_cost off base limit hl low (low + half_td (high - low))
      (r.1, r.2 + 1)
  else ((low, high), 0)
termination_by (high - low).toNat
decreasing_by
· have h2 : 2 ≤ high - low := by omega
  have ha : 1 ≤ half_td (high - low) ∧ half_td (high - low) ≤ high - low - 1 := by
    unfold half_td; split
    · omega
    · split <;> omega
  omega
· have h2 : 2 ≤ high - low := by omega
  have ha : 1 ≤ half_td (high - low) ∧ half_td (high - low) ≤ high - low - 1 := by
    unfold half_td; split
    · omega
    · split <;> omega
  omega

/-- Cost-instrumented `refine_backward`. -/
def refine_backward_cost (off : ℤ → ℤ) (base limit : ℤ) (hl : 1 ≤ limit)
    (low high : ℤ) : (ℤ × ℤ) × ℕ :=
  if h : limit < high - low then
    if off (low + half_td (high - low)) = base then
      let r := refine_backward_cost off base limit hl low (low + half_td (high - low))
      (r.1, r.2 + 1)
    else
      let r := refine_backward_cost off base limit hl (low + half_td (high - low)) high
      (r.1, r.2 + 1)
  else ((low, high), 0)
termination_by (high - low).toNat
decreasing_by
· have h2 : 2 ≤ high - low := by omega
  have ha : 1 ≤ half_td (high - low) ∧ half_td (high - low) ≤ high - low - 1 := by
    unfold half_td; split
    · omega
    · split <;> omega
  omega
· have h2 : 2 ≤ high - low := by omega
  have ha : 1 ≤ half_td (high - low) ∧ half_td (high - low) ≤ high - low - 1 := by
    unfold half_td; split
    · omega
    · split <;> omega
  omega

/-- Cost-instrumented `find_transition_forward`: same result, together
with the total number of evaluations of `off` (one for the base offset,
one per day-scan step, one per bisection probe). -/
def find_transition_forward_cost (off : ℤ → ℤ) (start : ℤ) (maxDays : ℕ := 400) :
    Option ℤ × ℕ :=
  let base := off start
  let s := day_scan_forward_cost off base maxDays start
  match s.1 with
  | none => (none, 1 + s.2)
  | some day_cursor =>
    let p1 := hour_refine_forward_cost off base 24 (day_cursor - DAY_US) day_cursor
    let p2 := refine_forward_cost off base MIN_US min_us_one_le p1.1.1 p1.1.2
    let p3 := refine_forward_cost off base SEC_US sec_us_one_le p2.1.1 p2.1.2
    (some (round_to_minute p3.1.2), 1 + s.2 + p1.2 + p2.2 + p3.2)

/-- Cost-instrumented `find_transition_backward`. -/
def find_transition_backward_cost (off : ℤ → ℤ) (start : ℤ) (maxDays : ℕ := 400) :
    Option ℤ × ℕ :=
  let base := off start
  let s := day_scan_backward_cost off base maxDays start
  match s.1 with
  | none => (none, 1 + s.2)
  | some day_cursor =>
    let p1 := refine_backward_cost off base HOUR_US hour_us_one_le day_cursor (day_cursor + DAY_US)
    let p2 := refine_backward_cost off base MIN_US min_us_one_le p1.1.1 p1.1.2
    let p3 := refine_backward_cost off base SEC_US sec_us_one_le p2.1.1 p2.1.2
    (some (round_to_minute p3.1.1), 1 + s.2 + p1.2 + p2.2 + p3.2)

/-- A two-regime step offset function: value `a` strictly before the
transition instant `T`, value `b` from `T` on. -/
def step_off (a b T : ℤ) : ℤ → ℤ := fun t => if t < T then a else b

/-- An offset function whose only excursion lies strictly inside a day, so
it is invisible at whole-day sample points. -/
def off_dip (t : ℤ) : ℤ := if HOUR_US ≤ t ∧ t < 2 * HOUR_US then 1 else 0

/-- A three-regime offset function with transitions at one day and at two
days after the epoch. -/
def off3 (t : ℤ) : ℤ :=
  if t < DAY_US then 0 else if t < 2 * DAY_US then 1 else 2

/-- A DST probe matching `off3`: DST (one hour) between one day and two
days after the epoch, `None` elsewhere. -/
def dst3 (t : ℤ) : Option ℤ :=
  if DAY_US ≤ t ∧ t < 2 * DAY_US then some 1 else none

/-- Python `date.weekday()` of the wall-clock instant: Monday is 0;
1970-01-01 was a Thursday (3). -/
def weekday_of (t : ℤ) : ℤ := (t / DAY_US + 3) % 7

/-- Source `WTimeWeekdayBinarySensor._update_and_write` (line 304):
`now.weekday() < 5`. -/
def weekday_sensor_on (t : ℤ) : Bool := weekday_of t < 5

/-- Source `WTimeWeekendBinarySensor._update_and_write` (line 339):
`now.weekday() >= 5`. -/
def weekend_sensor_on (t : ℤ) : Bool := weekday_of t ≥ 5

theorem half_td_bounds (d : ℤ) (h : 0 ≤ d) : 0 ≤ half_td d ∧ half_td d ≤ d := by
  unfold half_td
  split
  · omega
  · split <;> omega

theorem half_td_strict (d : ℤ) (h : 2 ≤ d) : 1 ≤ half_td d ∧ half_td d ≤ d - 1 := by
  unfold half_td
  split
  · omega
  · split <;> omega

theorem half_td_two_mul (d : ℤ) : d - 1 ≤ 2 * half_td d ∧ 2 * half_td d ≤ d + 1 := by
  unfold half_td
  split
  · omega
  · split <;> omega

theorem day_scan_forward_eq_none (off : ℤ → ℤ) (base : ℤ) :
    ∀ (n : ℕ) (cursor : ℤ),
      (∀ k : ℕ, 1 ≤ k → k ≤ n → off (cursor + k * DAY_US) = base) →
      day_scan_forward off base n cursor = none := by
  intro n
  induction n with
  | zero => intro cursor _; rfl
  | succ m ih =>
    intro cursor h
    have h1 : off (cursor + DAY_US) = base := by
      have := h 1 (by omega) (by omega)
      simpa using this
    unfold day_scan_forward
    rw [if_neg (not_not_intro h1)]
    apply ih
    intro k hk1 hk2
    have := h (k + 1) (by omega) (by omega)
    have harg : cursor + ((k : ℤ) + 1) * DAY_US = cursor + DAY_US + (k : ℤ) * DAY_US := by
      ring
    rw [show (((k + 1 : ℕ)) : ℤ) = (k : ℤ) + 1 by push_cast; ring, harg] at this
    exact this

theorem day_scan_backward_eq_none (off : ℤ → ℤ) (base : ℤ) :
    ∀ (n : ℕ) (cursor : ℤ),
      (∀ k : ℕ, 1 ≤ k → k ≤ n → off (cursor - k * DAY_US) = base) →
      day_scan_backward off base n cursor = none := by
  intro n
  induction n with
  | zero => intro cursor _; rfl
  | succ m ih =>
    intro cursor h
    have h1 : off (cursor - DAY_US) = base := by
      have := h 1 (by omega) (by omega)
      simpa using this
    unfold day_scan_backward
    rw [if_neg (not_not_intro h1)]
    apply ih
    intro k hk1 hk2
    have := h (k + 1) (by omega) (by omega)
    have harg : cursor - ((k : ℤ) + 1) * DAY_US = cursor - DAY_US - (k : ℤ) * DAY_US := by
      ring
    rw [show (((k + 1 : ℕ)) : ℤ) = (k : ℤ) + 1 by push_cast; ring, harg] at this
    exact this

theorem day_scan_forward_eq_some (off : ℤ → ℤ) (base : ℤ) :
    ∀ (n : ℕ) (cursor c : ℤ),
      day_scan_forward off base n cursor = some c →
      off c ≠ base ∧ (off (c - DAY_US) = base ∨ c - DAY_US = cursor) ∧
      cursor + DAY_US ≤ c ∧ c ≤ cursor + n * DAY_US := by
  intro n
  induction n with
  | zero => intro cursor c h; exact absurd h (by simp [day_scan_forward])
  | succ m ih =>
    intro cursor c h
    unfold day_scan_forward at h
    have hD : (0:ℤ) ≤ DAY_US := by decide
    have hmd : (0:ℤ) ≤ (m : ℤ) * DAY_US := mul_nonneg (by positivity) hD
    have hexp : ((m + 1 : ℕ) : ℤ) * DAY_US = (m : ℤ) * DAY_US + DAY_US := by
      push_cast; ring
    by_cases hc : off (cursor + DAY_US) ≠ base
    · rw [if_pos hc] at h
      have hcc : c = cursor + DAY_US := by injection h with h'; omega
      subst hcc
      refine ⟨hc, Or.inr (by ring), le_refl _, ?_⟩
      rw [hexp]
      omega
    · rw [if_neg hc] at h
      obtain ⟨a1, a2, a3, a4⟩ := ih (cursor + DAY_US) c h
      push_neg at hc
      refine ⟨a1, ?_, by omega, ?_⟩
      · rcases a2 with a2 | a2
        · exact Or.inl a2
        · exact Or.inl (by rw [a2]; exact hc)
      · rw [hexp]
        have a4' : c ≤ cursor + DAY_US + (m : ℤ) * DAY_US := a4
        omega

theorem day_scan_backward_eq_some (off : ℤ → ℤ) (base : ℤ) :
    ∀ (n : ℕ) (cursor c : ℤ),
      day_scan_backward off base n cursor = some c →
      off c ≠ base ∧ (off (c + DAY_US) = base ∨ c + DAY_US = cursor) ∧
      c ≤ cursor - DAY_US ∧ cursor - n * DAY_US ≤ c := by
  intro n
  induction n with
  | zero => intro cursor c h; exact absurd h (by simp [day_scan_backward])
  | succ m ih =>
    intro cursor c h
    unfold day_scan_backward at h
    have hD : (0:ℤ) ≤ DAY_US := by decide
    have hmd : (0:ℤ) ≤ (m : ℤ) * DAY_US := mul_nonneg (by positivity) hD
    have hexp : ((m + 1 : ℕ) : ℤ) * DAY_US = (m : ℤ) * DAY_US + DAY_US := by
      push_cast; ring
    by_cases hc : off (cursor - DAY_US) ≠ base
    · rw [if_pos hc] at h
      have hcc : c = cursor - DAY_US := by injection h with h'; omega
      subst hcc
      refine ⟨hc, Or.inr (by ring), le_refl _, ?_⟩
      rw [hexp]
      omega
    · rw [if_neg hc] at h
      obtain ⟨a1, a2, a3, a4⟩ := ih (cursor - DAY_US) c h
      push_neg at hc
      refine ⟨a1, ?_, by omega, ?_⟩
      · rcases a2 with a2 | a2
        · exact Or.inl a2
        · exact Or.inl (by rw [a2]; exact hc)
      · rw [hexp]
        have a4' : cursor - DAY_US - (m : ℤ) * DAY_US ≤ c := a4
        omega

theorem day_scan_forward_of_none (off : ℤ → ℤ) (base : ℤ) :
    ∀ (n : ℕ) (cursor : ℤ), day_scan_forward off base n cursor = none →
      ∀ k : ℕ, 1 ≤ k → k ≤ n → off (cursor + k * DAY_US) = base := by
  intro n
  induction n with
  | zero => intro cursor _ k hk1 hk2; omega
  | succ m ih =>
    intro cursor h k hk1 hk2
    unfold day_scan_forward at h
    by_cases hc : off (cursor + DAY_US) ≠ base
    · rw [if_pos hc] at h; exact absurd h (by simp)
    · rw [if_neg hc] at h
      push_neg at hc
      rcases Nat.eq_or_lt_of_le hk1 with he | hlt
      · subst he; simpa using hc
      · have := ih (cursor + DAY_US) h (k - 1) (by omega) (by omega)
        have hcast : ((k - 1 : ℕ) : ℤ) = (k : ℤ) - 1 := by
          rw [Nat.cast_sub (by omega : 1 ≤ k)]; push_cast; ring
        have harg : cursor + DAY_US + ((k - 1 : ℕ) : ℤ) * DAY_US =
            cursor + (k : ℤ) * DAY_US := by rw [hcast]; ring
        rw [harg] at this
        exact this

theorem day_scan_backward_of_none (off : ℤ → ℤ) (base : ℤ) :
    ∀ (n : ℕ) (cursor : ℤ), day_scan_backward off base n cursor = none →
      ∀ k : ℕ, 1 ≤ k → k ≤ n → off (cursor - k * DAY_US) = base := by
  intro n
  induction n with
  | zero => intro cursor _ k hk1 hk2; omega
  | succ m ih =>
    intro cursor h k hk1 hk2
    unfold day_scan_backward at h
    by_cases hc : off (cursor - DAY_US) ≠ base
    · rw [if_pos hc] at h; exact absurd h (by simp)
    · rw [if_neg hc] at h
      push_neg at hc
      rcases Nat.eq_or_lt_of_le hk1 with he | hlt
      · subst he; simpa using hc
      · have := ih (cursor - DAY_US) h (k - 1) (by omega) (by omega)
        have hcast : ((k - 1 : ℕ) : ℤ) = (k : ℤ) - 1 := by
          rw [Nat.cast_sub (by omega : 1 ≤ k)]; push_cast; ring
        have harg : cursor - DAY_US - ((k - 1 : ℕ) : ℤ) * DAY_US =
            cursor - (k : ℤ) * DAY_US := by rw [hcast]; ring
        rw [harg] at this
        exact this

theorem refine_forward_bracket (off : ℤ → ℤ) (base limit : ℤ) (hl : 1 ≤ limit)
    (T lo0 hi0 : ℤ)
    (hbase : ∀ t, lo0 ≤ t → t < T → off t = base)
    (hdiff : ∀ t, T ≤ t → t ≤ hi0 → off t ≠ base) :
    ∀ (n : ℕ) (low high : ℤ), (high - low).toNat ≤ n →
      lo0 ≤ low → high ≤ hi0 → low < T → T ≤ high →
      lo0 ≤ (refine_forward off base limit hl low high).1 ∧
      (refine_forward off base limit hl low high).1 < T ∧
      T ≤ (refine_forward off base limit hl low high).2 ∧
      (refine_forward off base limit hl low high).2 ≤ hi0 ∧
      (refine_forward off base limit hl low high).2 -
        (refine_forward off base limit hl low high).1 ≤ limit := by
  intro n
  induction n with
  | zero => intro low high hn h1 h2 h3 h4; omega
  | succ m ih =>
    intro low high hn h1 h2 h3 h4
    rw [refine_forward.eq_def]
    split_ifs with hguard hmid
    · have hd2 : 2 ≤ high - low := by omega
      obtain ⟨hh1, hh2⟩ := half_td_strict _ hd2
      apply ih
      · omega
      · omega
      · exact h2
      · by_contra hcon
        push_neg at hcon
        exact hdiff _ hcon (by omega) hmid
      · exact h4
    · have hd2 : 2 ≤ high - low := by omega
      obtain ⟨hh1, hh2⟩ := half_td_strict _ hd2
      apply ih
      · omega
      · exact h1
      · omega
      · exact h3
      · by_contra hcon
        push_neg at hcon
        exact hmid (hbase _ (by omega) hcon)
    · exact ⟨h1, h3, h4, h2, by omega⟩

theorem refine_backward_bracket (off : ℤ → ℤ) (base limit : ℤ) (hl : 1 ≤ limit)
    (T lo0 hi0 : ℤ)
    (hdiff : ∀ t, lo0 ≤ t → t < T → off t ≠ base)
    (hbase : ∀ t, T ≤ t → t ≤ hi0 → off t = base) :
    ∀ (n : ℕ) (low high : ℤ), (high - low).toNat ≤ n →
      lo0 ≤ low → high ≤ hi0 → low < T → T ≤ high →
      lo0 ≤ (refine_backward off base limit hl low high).1 ∧
      (refine_backward off base limit hl low high).1 < T ∧
      T ≤ (refine_backward off base limit hl low high).2 ∧
      (refine_backward off base limit hl low high).2 ≤ hi0 ∧
      (refine_backward off base limit hl low high).2 -
        (refine_backward off base limit hl low high).1 ≤ limit := by
  intro n
  induction n with
  | zero => intro low high hn h1 h2 h3 h4; omega
  | succ m ih =>
    intro low high hn h1 h2 h3 h4
    rw [refine_backward.eq_def]
    split_ifs with hguard hmid
    · have hd2 : 2 ≤ high - low := by omega
      obtain ⟨hh1, hh2⟩ := half_td_strict _ hd2
      apply ih
      · omega
      · exact h1
      · omega
      · exact h3
      · by_contra hcon
        push_neg at hcon
        exact hdiff _ (by omega) hcon hmid
    · have hd2 : 2 ≤ high - low := by omega
      obtain ⟨hh1, hh2⟩ := half_td_strict _ hd2
      apply ih
      · omega
      · omega
      · exact h2
      · by_contra hcon
        push_neg at hcon
        exact hmid (hbase _ hcon (by omega))
      · exact h4
    · exact ⟨h1, h3, h4, h2, by omega⟩

theorem hour_refine_forward_bracket (off : ℤ → ℤ) (base : ℤ) (T lo0 hi0 : ℤ)
    (hbase : ∀ t, lo0 ≤ t → t < T → off t = base)
    (hdiff : ∀ t, T ≤ t → t ≤ hi0 → off t ≠ base) :
    ∀ (fuel : ℕ) (low high : ℤ), lo0 ≤ low → high ≤ hi0 → low < T → T ≤ high →
      lo0 ≤ (hour_refine_forward off base fuel low high).1 ∧
      (hour_refine_forward off base fuel low high).1 < T ∧
      T ≤ (hour_refine_forward off base fuel low high).2 ∧
      (hour_refine_forward off base fuel low high).2 ≤ hi0 := by
  intro fuel
  induction fuel with
  | zero => intro low high h1 h2 h3 h4; exact ⟨h1, h3, h4, h2⟩
  | succ m ih =>
    intro low high h1 h2 h3 h4
    have hd0 : 0 ≤ high - low := by omega
    obtain ⟨hb1, hb2⟩ := half_td_bounds _ hd0
    by_cases hc : off (low + half_td (high - low)) = base
    · have hmidT : low + half_td (high - low) < T := by
        by_contra hcon
        push_neg at hcon
        exact hdiff _ hcon (by omega) hc
      simp only [hour_refine_forward, if_pos hc]
      split_ifs with hw
      · exact ⟨by omega, hmidT, h4, h2⟩
      · exact ih _ _ (by omega) h2 hmidT h4
    · have hmidT : T ≤ low + half_td (high - low) := by
        by_contra hcon
        push_neg at hcon
        exact hc (hbase _ (by omega) hcon)
      simp only [hour_refine_forward, if_neg hc]
      split_ifs with hw
      · exact ⟨h1, h3, hmidT, by omega⟩
      · exact ih _ _ h1 (by omega) h3 hmidT

theorem hour_refine_forward_sub (off : ℤ → ℤ) (base : ℤ) :
    ∀ (fuel : ℕ) (low high : ℤ), low ≤ high →
      low ≤ (hour_refine_forward off base fuel low high).1 ∧
      (hour_refine_forward off base fuel low high).1 ≤
        (hour_refine_forward off base fuel low high).2 ∧
      (hour_refine_forward off base fuel low high).2 ≤ high := by
  intro fuel
  induction fuel with
  | zero => intro low high h1; exact ⟨le_refl _, h1, le_refl _⟩
  | succ m ih =>
    intro low high h1
    have hd0 : 0 ≤ high - low := by omega
    obtain ⟨hb1, hb2⟩ := half_td_bounds _ hd0
    by_cases hc : off (low + half_td (high - low)) = base
    · simp only [hour_refine_forward, if_pos hc]
      split_ifs with hw
      · exact ⟨by omega, by omega, le_refl _⟩
      · have := ih (low + half_td (high - low)) high (by omega)
        exact ⟨by omega, this.2.1, this.2.2⟩
    · simp only [hour_refine_forward, if_neg hc]
      split_ifs with hw
      · exact ⟨le_refl _, by omega, by omega⟩
      · have := ih low (low + half_td (high - low)) (by omega)
        exact ⟨this.1, this.2.1, by omega⟩

theorem refine_forward_le_limit (off : ℤ → ℤ) (base limit : ℤ) (hl : 1 ≤ limit) :
    ∀ (n : ℕ) (low high : ℤ), (high - low).toNat ≤ n →
      (refine_forward off base limit hl low high).2 -
        (refine_forward off base limit hl low high).1 ≤ limit := by
  intro n
  induction n with
  | zero =>
    intro low high hn
    rw [refine_forward.eq_def]
    rw [dif_neg (by omega)]
    omega
  | succ m ih =>
    intro low high hn
    rw [refine_forward.eq_def]
    split_ifs with hguard hmid
    · have hd2 : 2 ≤ high - low := by omega
      obtain ⟨hh1, hh2⟩ := half_td_strict _ hd2
      exact ih _ _ (by omega)
    · have hd2 : 2 ≤ high - low := by omega
      obtain ⟨hh1, hh2⟩ := half_td_strict _ hd2
      exact ih _ _ (by omega)
    · omega

theorem refine_backward_le_limit (off : ℤ → ℤ) (base limit : ℤ) (hl : 1 ≤ limit) :
    ∀ (n : ℕ) (low high : ℤ), (high - low).toNat ≤ n →
      (refine_backward off base limit hl low high).2 -
        (refine_backward off base limit hl low high).1 ≤ limit := by
  intro n
  induction n with
  | zero =>
    intro low high hn
    rw [refine_backward.eq_def]
    rw [dif_neg (by omega)]
    omega
  | succ m ih =>
    intro low high hn
    rw [refine_backward.eq_def]
    split_ifs with hguard hmid
    · have hd2 : 2 ≤ high - low := by omega
      obtain ⟨hh1, hh2⟩ := half_td_strict _ hd2
      exact ih _ _ (by omega)
    · have hd2 : 2 ≤ high - low := by omega
      obtain ⟨hh1, hh2⟩ := half_td_strict _ hd2
      exact ih _ _ (by omega)
    · omega

theorem round_to_minute_forward (T low high : ℤ) (h1 : low < T) (h2 : T ≤ high)
    (h3 : high - low ≤ SEC_US) :
    round_to_minute high % MIN_US = 0 ∧ T - SEC_US < round_to_minute high ∧
    round_to_minute high < T + MIN_US ∧ (T % MIN_US = 0 → round_to_minute high = T) := by
  unfold round_to_minute floor_to_second floor_to_minute second_of
  simp only [SEC_US, MIN_US] at *
  split_ifs with hs
  · omega
  · omega

theorem round_to_minute_backward (T low high : ℤ) (h1 : low < T) (h2 : T ≤ high)
    (h3 : high - low ≤ SEC_US) :
    round_to_minute low % MIN_US = 0 ∧ T - 2 * SEC_US < round_to_minute low ∧
    round_to_minute low < T + MIN_US ∧ (T % MIN_US = 0 → round_to_minute low = T) := by
  unfold round_to_minute floor_to_second floor_to_minute second_of
  simp only [SEC_US, MIN_US] at *
  split_ifs with hs
  · omega
  · omega

theorem find_transition_forward_spec (off : ℤ → ℤ) (start T : ℤ) (maxDays : ℕ)
    (h1 : start < T) (h2 : T ≤ start + maxDays * DAY_US)
    (hbase : ∀ t, start ≤ t → t < T → off t = off start)
    (hdiff : ∀ t, T ≤ t → t ≤ start + maxDays * DAY_US → off t ≠ off start) :
    ∃ c, find_transition_forward off start maxDays = some c ∧
      c % MIN_US = 0 ∧ T - SEC_US < c ∧ c < T + MIN_US ∧
      (T % MIN_US = 0 → c = T) := by
  have hD : (0:ℤ) < DAY_US := by decide
  cases hscan : day_scan_forward off (off start) maxDays start with
  | none =>
    exfalso
    have hmd1 : 1 ≤ maxDays := by
      rcases Nat.eq_zero_or_pos maxDays with hz | hp
      · subst hz; simp at h2; omega
      · omega
    have hlast := day_scan_forward_of_none off (off start) maxDays start hscan
      maxDays hmd1 (le_refl _)
    exact hdiff (start + maxDays * DAY_US) h2 (le_refl _) hlast
  | some cursor =>
    obtain ⟨hnb, hprev, hge, hle⟩ :=
      day_scan_forward_eq_some off (off start) maxDays start cursor hscan
    have hcT : T ≤ cursor := by
      by_contra hcon
      push_neg at hcon
      exact hnb (hbase cursor (by omega) hcon)
    have hlowT : cursor - DAY_US < T := by
      rcases hprev with hp | hp
      · by_contra hcon
        push_neg at hcon
        exact hdiff (cursor - DAY_US) hcon (by omega) hp
      · omega
    have hlo : start ≤ cursor - DAY_US := by omega
    have hbase' : ∀ t, cursor - DAY_US ≤ t → t < T → off t = off start :=
      fun t ht1 ht2 => hbase t (le_trans hlo ht1) ht2
    have hdiff' : ∀ t, T ≤ t → t ≤ cursor → off t ≠ off start :=
      fun t ht1 ht2 => hdiff t ht1 (le_trans ht2 hle)
    obtain ⟨q1, q2, q3, q4⟩ := hour_refine_forward_bracket off (off start) T
      (cursor - DAY_US) cursor hbase' hdiff' 24 (cursor - DAY_US) cursor
      (le_refl _) (le_refl _) hlowT hcT
    set p1 := hour_refine_forward off (off start) 24 (cursor - DAY_US) cursor with hp1
    obtain ⟨r1, r2, r3, r4, r5⟩ := refine_forward_bracket off (off start) MIN_US
      min_us_one_le T (cursor - DAY_US) cursor hbase' hdiff'
      (p1.2 - p1.1).toNat p1.1 p1.2 (le_refl _) q1 q4 q2 q3
    set p2 := refine_forward off (off start) MIN_US min_us_one_le p1.1 p1.2 with hp2
    obtain ⟨s1, s2, s3, s4, s5⟩ := refine_forward_bracket off (off start) SEC_US
      sec_us_one_le T (cursor - DAY_US) cursor hbase' hdiff'
      (p2.2 - p2.1).toNat p2.1 p2.2 (le_refl _) r1 r4 r2 r3
    set p3 := refine_forward off (off start) SEC_US sec_us_one_le p2.1 p2.2 with hp3
    obtain ⟨w1, w2, w3, w4⟩ := round_to_minute_forward T p3.1 p3.2 s2 s3 s5
    refine ⟨round_to_minute p3.2, ?_, w1, w2, w3, w4⟩
    simp only [find_transition_forward, hscan]

theorem find_transition_backward_spec (off : ℤ → ℤ) (start T : ℤ) (maxDays : ℕ)
    (h1 : T ≤ start) (h2 : start - maxDays * DAY_US < T)
    (hdiff : ∀ t, start - maxDays * DAY_US ≤ t → t < T → off t ≠ off start)
    (hbase : ∀ t, T ≤ t → t ≤ start → off t = off start) :
    ∃ c, find_transition_backward off start maxDays = some c ∧
      c % MIN_US = 0 ∧ T - 2 * SEC_US < c ∧ c < T + MIN_US ∧
      (T % MIN_US = 0 → c = T) := by
  have hD : (0:ℤ) < DAY_US := by decide
  cases hscan : day_scan_backward off (off start) maxDays start with
  | none =>
    exfalso
    have hmd1 : 1 ≤ maxDays := by
      rcases Nat.eq_zero_or_pos maxDays with hz | hp
      · subst hz; simp at h2; omega
      · omega
    have hlast := day_scan_backward_of_none off (off start) maxDays start hscan
      maxDays hmd1 (le_refl _)
    exact hdiff (start - maxDays * DAY_US) (le_refl _) h2 hlast
  | some cursor =>
    obtain ⟨hnb, hnext, hle, hge⟩ :=
      day_scan_backward_eq_some off (off start) maxDays start cursor hscan
    have hcT : cursor < T := by
      by_contra hcon
      push_neg at hcon
      exact hnb (hbase cursor hcon (by omega))
    have hhighT : T ≤ cursor + DAY_US := by
      rcases hnext with hp | hp
      · by_contra hcon
        push_neg at hcon
        exact hdiff (cursor + DAY_US) (by omega) hcon hp
      · omega
    have hhi : cursor + DAY_US ≤ start := by omega
    have hdiff' : ∀ t, cursor ≤ t → t < T → off t ≠ off start :=
      fun t ht1 ht2 => hdiff t (by omega) ht2
    have hbase' : ∀ t, T ≤ t → t ≤ cursor + DAY_US → off t = off start :=
      fun t ht1 ht2 => hbase t ht1 (le_trans ht2 hhi)
    obtain ⟨q1, q2, q3, q4, q5⟩ := refine_backward_bracket off (off start) HOUR_US
      hour_us_one_le T cursor (cursor + DAY_US) hdiff' hbase'
      (cursor + DAY_US - cursor).toNat cursor (cursor + DAY_US)
      (le_refl _) (le_refl _) (le_refl _) hcT hhighT
    set p1 := refine_backward off (off start) HOUR_US hour_us_one_le cursor
      (cursor + DAY_US) with hp1
    obtain ⟨r1, r2, r3, r4, r5⟩ := refine_backward_bracket off (off start) MIN_US
      min_us_one_le T cursor (cursor + DAY_US) hdiff' hbase'
      (p1.2 - p1.1).toNat p1.1 p1.2 (le_refl _) q1 q4 q2 q3
    set p2 := refine_backward off (off start) MIN_US min_us_one_le p1.1 p1.2 with hp2
    obtain ⟨s1, s2, s3, s4, s5⟩ := refine_backward_bracket off (off start) SEC_US
      sec_us_one_le T cursor (cursor + DAY_US) hdiff' hbase'
      (p2.2 - p2.1).toNat p2.1 p2.2 (le_refl _) r1 r4 r2 r3
    set p3 := refine_backward off (off start) SEC_US sec_us_one_le p2.1 p2.2 with hp3
    obtain ⟨w1, w2, w3, w4⟩ := round_to_minute_backward T p3.1 p3.2 s2 s3 s5
    refine ⟨round_to_minute p3.1, ?_, w1, w2, w3, w4⟩
    simp only [find_transition_backward, hscan]

theorem day_scan_forward_cost_spec (off : ℤ → ℤ) (base : ℤ) :
    ∀ (n : ℕ) (cursor : ℤ),
      (day_scan_forward_cost off base n cursor).1 = day_scan_forward off base n cursor ∧
      (day_scan_forward_cost off base n cursor).2 ≤ n := by
  intro n
  induction n with
  | zero => intro cursor; exact ⟨rfl, le_refl _⟩
  | succ m ih =>
    intro cursor
    simp only [day_scan_forward_cost, day_scan_forward]
    split_ifs with hc
    · exact ⟨rfl, by omega⟩
    · obtain ⟨ha, hb⟩ := ih (cursor + DAY_US)
      refine ⟨ha, ?_⟩
      show (day_scan_forward_cost off base m (cursor + DAY_US)).2 + 1 ≤ m + 1
      omega

theorem day_scan_backward_cost_spec (off : ℤ → ℤ) (base : ℤ) :
    ∀ (n : ℕ) (cursor : ℤ),
      (day_scan_backward_cost off base n cursor).1 = day_scan_backward off base n cursor ∧
      (day_scan_backward_cost off base n cursor).2 ≤ n := by
  intro n
  induction n with
  | zero => intro cursor; exact ⟨rfl, le_refl _⟩
  | succ m ih =>
    intro cursor
    simp only [day_scan_backward_cost, day_scan_backward]
    split_ifs with hc
    · exact ⟨rfl, by omega⟩
    · obtain ⟨ha, hb⟩ := ih (cursor - DAY_US)
      refine ⟨ha, ?_⟩
      show (day_scan_backward_cost off base m (cursor - DAY_US)).2 + 1 ≤ m + 1
      omega

theorem hour_refine_forward_cost_spec (off : ℤ → ℤ) (base : ℤ) :
    ∀ (fuel : ℕ) (low high : ℤ),
      (hour_refine_forward_cost off base fuel low high).1 =
        hour_refine_forward off base fuel low high ∧
      (hour_refine_forward_cost off base fuel low high).2 ≤ fuel := by
  intro fuel
  induction fuel with
  | zero => intro low high; exact ⟨rfl, le_refl _⟩
  | succ m ih =>
    intro low high
    by_cases hc : off (low + half_td (high - low)) = base
    · simp only [hour_refine_forward_cost, hour_refine_forward, if_pos hc]
      split_ifs with hw
      · exact ⟨rfl, by omega⟩
      · obtain ⟨ha, hb⟩ := ih (low + half_td (high - low)) high
        refine ⟨ha, ?_⟩
        show (hour_refine_forward_cost off base m (low + half_td (high - low)) high).2 + 1 ≤ m + 1
        omega
    · simp only [hour_refine_forward_cost, hour_refine_forward, if_neg hc]
      split_ifs with hw
      · exact ⟨rfl, by omega⟩
      · obtain ⟨ha, hb⟩ := ih low (low + half_td (high - low))
        refine ⟨ha, ?_⟩
        show (hour_refine_forward_cost off base m low (low + half_td (high - low))).2 + 1 ≤ m + 1
        omega

theorem refine_forward_cost_fst (off : ℤ → ℤ) (base limit : ℤ) (hl : 1 ≤ limit) :
    ∀ (n : ℕ) (low high : ℤ), (high - low).toNat ≤ n →
      (refine_forward_cost off base limit hl low high).1 =
        refine_forward off base limit hl low high := by
  intro n
  induction n with
  | zero =>
    intro low high hn
    rw [refine_forward_cost.eq_def, refine_forward.eq_def]
    rw [dif_neg (by omega), dif_neg (by omega)]
  | succ m ih =>
    intro low high hn
    rw [refine_forward_cost.eq_def, refine_forward.eq_def]
    split_ifs with hguard hmid
    · have hd2 : 2 ≤ high - low := by omega
      obtain ⟨hh1, hh2⟩ := half_td_strict _ hd2
      exact ih _ _ (by omega)
    · have hd2 : 2 ≤ high - low := by omega
      obtain ⟨hh1, hh2⟩ := half_td_strict _ hd2
      exact ih _ _ (by omega)
    · rfl

theorem refine_forward_cost_fst_eq (off : ℤ → ℤ) (base limit : ℤ) (hl : 1 ≤ limit)
    (low high : ℤ) :
    (refine_forward_cost off base limit hl low high).1 =
      refine_forward off base limit hl low high :=
  refine_forward_cost_fst off base limit hl (high - low).toNat low high (le_refl _)

theorem refine_backward_cost_fst (off : ℤ → ℤ) (base limit : ℤ) (hl : 1 ≤ limit) :
    ∀ (n : ℕ) (low high : ℤ), (high - low).toNat ≤ n →
      (refine_backward_cost off base limit hl low high).1 =
        refine_backward off base limit hl low high := by
  intro n
  induction n with
  | zero =>
    intro low high hn
    rw [refine_backward_cost.eq_def, refine_backward.eq_def]
    rw [dif_neg (by omega), dif_neg (by omega)]
  | succ m ih =>
    intro low high hn
    rw [refine_backward_cost.eq_def, refine_backward.eq_def]
    split_ifs with hguard hmid
    · have hd2 : 2 ≤ high - low := by omega
      obtain ⟨hh1, hh2⟩ := half_td_strict _ hd2
      exact ih _ _ (by omega)
    · have hd2 : 2 ≤ high - low := by omega
      obtain ⟨hh1, hh2⟩ := half_td_strict _ hd2
      exact ih _ _ (by omega)
    · rfl

theorem refine_backward_cost_fst_eq (off : ℤ → ℤ) (base limit : ℤ) (hl : 1 ≤ limit)
    (low high : ℤ) :
    (refine_backward_cost off base limit hl low high).1 =
      refine_backward off base limit hl low high :=
  refine_backward_cost_fst off base limit hl (high - low).toNat low high (le_refl _)

theorem refine_forward_le_limit_eq (off : ℤ → ℤ) (base limit : ℤ) (hl : 1 ≤ limit)
    (low high : ℤ) :
    (refine_forward off base limit hl low high).2 -
      (refine_forward off base limit hl low high).1 ≤ limit :=
  refine_forward_le_limit off base limit hl (high - low).toNat low high (le_refl _)

theorem refine_backward_le_limit_eq (off : ℤ → ℤ) (base limit : ℤ) (hl : 1 ≤ limit)
    (low high : ℤ) :
    (refine_backward off base limit hl low high).2 -
      (refine_backward off base limit hl low high).1 ≤ limit :=
  refine_backward_le_limit off base limit hl (high - low).toNat low high (le_refl _)

theorem refine_forward_cost_count (off : ℤ → ℤ) (base limit : ℤ) (hl : 1 ≤ limit) :
    ∀ (n : ℕ) (low high : ℤ), high - low ≤ 2 ^ n * limit →
      (refine_forward_cost off base limit hl low high).2 ≤ n := by
  intro n
  induction n with
  | zero =>
    intro low high hn
    rw [refine_forward_cost.eq_def]
    rw [dif_neg (by simp only [pow_zero, one_mul] at hn; omega)]
  | succ m ih =>
    intro low high hn
    rw [refine_forward_cost.eq_def]
    split_ifs with hguard hmid
    · have hd2 : 2 ≤ high - low := by omega
      have htm := half_td_two_mul (high - low)
      have hp : (2:ℤ) ^ (m+1) * limit = 2 * (2 ^ m * limit) := by ring
      rw [hp] at hn
      have hstep : high - (low + half_td (high - low)) ≤ 2 ^ m * limit := by omega
      have := ih (low + half_td (high - low)) high hstep
      show (refine_forward_cost off base limit hl (low + half_td (high - low)) high).2 + 1 ≤ m + 1
      omega
    · have hd2 : 2 ≤ high - low := by omega
      have htm := half_td_two_mul (high - low)
      have hp : (2:ℤ) ^ (m+1) * limit = 2 * (2 ^ m * limit) := by ring
      rw [hp] at hn
      have hstep : low + half_td (high - low) - low ≤ 2 ^ m * limit := by omega
      have := ih low (low + half_td (high - low)) hstep
      show (refine_forward_cost off base limit hl low (low + half_td (high - low))).2 + 1 ≤ m + 1
      omega
    · exact Nat.zero_le _

theorem refine_backward_cost_count (off : ℤ → ℤ) (base limit : ℤ) (hl : 1 ≤ limit) :
    ∀ (n : ℕ) (low high : ℤ), high - low ≤ 2 ^ n * limit →
      (refine_backward_cost off base limit hl low high).2 ≤ n := by
  intro n
  induction n with
  | zero =>
    intro low high hn
    rw [refine_backward_cost.eq_def]
    rw [dif_neg (by simp only [pow_zero, one_mul] at hn; omega)]
  | succ m ih =>
    intro low high hn
    rw [refine_backward_cost.eq_def]
    split_ifs with hguard hmid
    · have hd2 : 2 ≤ high - low := by omega
      have htm := half_td_two_mul (high - low)
      have hp : (2:ℤ) ^ (m+1) * limit = 2 * (2 ^ m * limit) := by ring
      rw [hp] at hn
      have hstep : low + half_td (high - low) - low ≤ 2 ^ m * limit := by omega
      have := ih low (low + half_td (high - low)) hstep
      show (refine_backward_cost off base limit hl low (low + half_td (high - low))).2 + 1 ≤ m + 1
      omega
    · have hd2 : 2 ≤ high - low := by omega
      have htm := half_td_two_mul (high - low)
      have hp : (2:ℤ) ^ (m+1) * limit = 2 * (2 ^ m * limit) := by ring
      rw [hp] at hn
      have hstep : high - (low + half_td (high - low)) ≤ 2 ^ m * limit := by omega
      have := ih (low + half_td (high - low)) high hstep
      show (refine_backward_cost off base limit hl (low + half_td (high - low)) high).2 + 1 ≤ m + 1
      omega
    · exact Nat.zero_le _

theorem find_transition_forward_cost_spec (off : ℤ → ℤ) (start : ℤ) (maxDays : ℕ) :
    (find_transition_forward_cost off start maxDays).1 =
      find_transition_forward off start maxDays ∧
    (find_transition_forward_cost off start maxDays).2 ≤ maxDays + 42 := by
  have hD : (0:ℤ) < DAY_US := by decide
  obtain ⟨hs1, hs2⟩ := day_scan_forward_cost_spec off (off start) maxDays start
  cases hscan : day_scan_forward off (off start) maxDays start with
  | none =>
    rw [hscan] at hs1
    constructor
    · simp only [find_transition_forward_cost, find_transition_forward, hs1, hscan]
    · simp only [find_transition_forward_cost, hs1]
      show 1 + (day_scan_forward_cost off (off start) maxDays start).2 ≤ maxDays + 42
      omega
  | some cursor =>
    rw [hscan] at hs1
    obtain ⟨hh1, hh2⟩ :=
      hour_refine_forward_cost_spec off (off start) 24 (cursor - DAY_US) cursor
    have hsub := hour_refine_forward_sub off (off start) 24 (cursor - DAY_US) cursor
      (by omega)
    have hwidth1 : (hour_refine_forward off (off start) 24 (cursor - DAY_US) cursor).2 -
        (hour_refine_forward off (off start) 24 (cursor - DAY_US) cursor).1 ≤ DAY_US := by
      omega
    have hmc := refine_forward_cost_count off (off start) MIN_US min_us_one_le 11
      (hour_refine_forward off (off start) 24 (cursor - DAY_US) cursor).1
      (hour_refine_forward off (off start) 24 (cursor - DAY_US) cursor).2
      (le_trans (by omega) (by decide : DAY_US ≤ 2 ^ 11 * MIN_US))
    have hmfst := refine_forward_cost_fst_eq off (off start) MIN_US min_us_one_le
      (hour_refine_forward off (off start) 24 (cursor - DAY_US) cursor).1
      (hour_refine_forward off (off start) 24 (cursor - DAY_US) cursor).2
    have hw2 := refine_forward_le_limit_eq off (off start) MIN_US min_us_one_le
      (hour_refine_forward off (off start) 24 (cursor - DAY_US) cursor).1
      (hour_refine_forward off (off start) 24 (cursor - DAY_US) cursor).2
    have hsc := refine_forward_cost_count off (off start) SEC_US sec_us_one_le 6
      (refine_forward off (off start) MIN_US min_us_one_le
        (hour_refine_forward off (off start) 24 (cursor - DAY_US) cursor).1
        (hour_refine_forward off (off start) 24 (cursor - DAY_US) cursor).2).1
      (refine_forward off (off start) MIN_US min_us_one_le
        (hour_refine_forward off (off start) 24 (cursor - DAY_US) cursor).1
        (hour_refine_forward off (off start) 24 (cursor - DAY_US) cursor).2).2
      (le_trans (by omega) (by decide : MIN_US ≤ 2 ^ 6 * SEC_US))
    have hsfst := refine_forward_cost_fst_eq off (off start) SEC_US sec_us_one_le
      (refine_forward off (off start) MIN_US min_us_one_le
        (hour_refine_forward off (off start) 24 (cursor - DAY_US) cursor).1
        (hour_refine_forward off (off start) 24 (cursor - DAY_US) cursor).2).1
      (refine_forward off (off start) MIN_US min_us_one_le
        (hour_refine_forward off (off start) 24 (cursor - DAY_US) cursor).1
        (hour_refine_forward off (off start) 24 (cursor - DAY_US) cursor).2).2
    constructor
    · simp only [find_transition_forward_cost, find_transition_forward, hs1, hscan,
        hh1, hmfst, hsfst]
    · simp only [find_transition_forward_cost, hs1, hscan, hh1, hmfst]
      show 1 + (day_scan_forward_cost off (off start) maxDays start).2 +
        (hour_refine_forward_cost off (off start) 24 (cursor - DAY_US) cursor).2 +
        (refine_forward_cost off (off start) MIN_US min_us_one_le
          (hour_refine_forward off (off start) 24 (cursor - DAY_US) cursor).1
          (hour_refine_forward off (off start) 24 (cursor - DAY_US) cursor).2).2 +
        (refine_forward_cost off (off start) SEC_US sec_us_one_le
          (refine_forward off (off start) MIN_US min_us_one_le
            (hour_refine_forward off (off start) 24 (cursor - DAY_US) cursor).1
            (hour_refine_forward off (off start) 24 (cursor - DAY_US) cursor).2).1
          (refine_forward off (off start) MIN_US min_us_one_le
            (hour_refine_forward off (off start) 24 (cursor - DAY_US) cursor).1
            (hour_refine_forward off (off start) 24 (cursor - DAY_US) cursor).2).2).2 ≤
        maxDays + 42
      omega

theorem find_transition_backward_cost_spec (off : ℤ → ℤ) (start : ℤ) (maxDays : ℕ) :
    (find_transition_backward_cost off start maxDays).1 =
      find_transition_backward off start maxDays ∧
    (find_transition_backward_cost off start maxDays).2 ≤ maxDays + 18 := by
  have hD : (0:ℤ) < DAY_US := by decide
  obtain ⟨hs1, hs2⟩ := day_scan_backward_cost_spec off (off start) maxDays start
  cases hscan : day_scan_backward off (off start) maxDays start with
  | none =>
    rw [hscan] at hs1
    constructor
    · simp only [find_transition_backward_cost, find_transition_backward, hs1, hscan]
    · simp only [find_transition_backward_cost, hs1]
      show 1 + (day_scan_backward_cost off (off start) maxDays start).2 ≤ maxDays + 18
      omega
  | some cursor =>
    rw [hscan] at hs1
    have hhc := refine_backward_cost_count off (off start) HOUR_US hour_us_one_le 5
      cursor (cursor + DAY_US)
      (le_trans (by omega) (by decide : DAY_US ≤ 2 ^ 5 * HOUR_US))
    have hhfst := refine_backward_cost_fst_eq off (off start) HOUR_US hour_us_one_le
      cursor (cursor + DAY_US)
    have hw1 := refine_backward_le_limit_eq off (off start) HOUR_US hour_us_one_le
      cursor (cursor + DAY_US)
    have hmc := refine_backward_cost_count off (off start) MIN_US min_us_one_le 6
      (refine_backward off (off start) HOUR_US hour_us_one_le cursor (cursor + DAY_US)).1
      (refine_backward off (off start) HOUR_US hour_us_one_le cursor (cursor + DAY_US)).2
      (le_trans (by omega) (by decide : HOUR_US ≤ 2 ^ 6 * MIN_US))
    have hmfst := refine_backward_cost_fst_eq off (off start) MIN_US min_us_one_le
      (refine_backward off (off start) HOUR_US hour_us_one_le cursor (cursor + DAY_US)).1
      (refine_backward off (off start) HOUR_US hour_us_one_le cursor (cursor + DAY_US)).2
    have hw2 := refine_backward_le_limit_eq off (off start) MIN_US min_us_one_le
      (refine_backward off (off start) HOUR_US hour_us_one_le cursor (cursor + DAY_US)).1
      (refine_backward off (off start) HOUR_US hour_us_one_le cursor (cursor + DAY_US)).2
    have hsc := refine_backward_cost_count off (off start) SEC_US sec_us_one_le 6
      (refine_backward off (off start) MIN_US min_us_one_le
        (refine_backward off (off start) HOUR_US hour_us_one_le cursor (cursor + DAY_US)).1
        (refine_backward off (off start) HOUR_US hour_us_one_le cursor (cursor + DAY_US)).2).1
      (refine_backward off (off start) MIN_US min_us_one_le
        (refine_backward off (off start) HOUR_US hour_us_one_le cursor (cursor + DAY_US)).1
        (refine_backward off (off start) HOUR_US hour_us_one_le cursor (cursor + DAY_US)).2).2
      (le_trans (by omega) (by decide : MIN_US ≤ 2 ^ 6 * SEC_US))
    have hsfst := refine_backward_cost_fst_eq off (off start) SEC_US sec_us_one_le
      (refine_backward off (off start) MIN_US min_us_one_le
        (refine_backward off (off start) HOUR_US hour_us_one_le cursor (cursor + DAY_US)).1
        (refine_backward off (off start) HOUR_US hour_us_one_le cursor (cursor + DAY_US)).2).1
      (refine_backward off (off start) MIN_US min_us_one_le
        (refine_backward off (off start) HOUR_US hour_us_one_le cursor (cursor + DAY_US)).1
        (refine_backward off (off start) HOUR_US hour_us_one_le cursor (cursor + DAY_US)).2).2
    constructor
    · simp only [find_transition_backward_cost, find_transition_backward, hs1, hscan,
        hhfst, hmfst, hsfst]
    · simp only [find_transition_backward_cost, hs1, hscan, hhfst, hmfst]
      show 1 + (day_scan_backward_cost off (off start) maxDays start).2 +
        (refine_backward_cost off (off start) HOUR_US hour_us_one_le cursor
          (cursor + DAY_US)).2 +
        (refine_backward_cost off (off start) MIN_US min_us_one_le
          (refine_backward off (off start) HOUR_US hour_us_one_le cursor (cursor + DAY_US)).1
          (refine_backward off (off start) HOUR_US hour_us_one_le cursor (cursor + DAY_US)).2).2 +
        (refine_backward_cost off (off start) SEC_US sec_us_one_le
          (refine_backward off (off start) MIN_US min_us_one_le
            (refine_backward off (off start) HOUR_US hour_us_one_le cursor (cursor + DAY_US)).1
            (refine_backward off (off start) HOUR_US hour_us_one_le cursor (cursor + DAY_US)).2).1
          (refine_backward off (off start) MIN_US min_us_one_le
            (refine_backward off (off start) HOUR_US hour_us_one_le cursor (cursor + DAY_US)).1
            (refine_backward off (off start) HOUR_US hour_us_one_le cursor (cursor + DAY_US)).2).2).2 ≤
        maxDays + 18
      omega

theorem find_transition_forward_eq_none_of (off : ℤ → ℤ) (start : ℤ) (maxDays : ℕ)
    (h : ∀ k : ℕ, 1 ≤ k → k ≤ maxDays → off (start + k * DAY_US) = off start) :
    find_transition_forward off start maxDays = none := by
  have hscan := day_scan_forward_eq_none off (off start) maxDays start h
  simp only [find_transition_forward, hscan]

theorem find_transition_backward_eq_none_of (off : ℤ → ℤ) (start : ℤ) (maxDays : ℕ)
    (h : ∀ k : ℕ, 1 ≤ k → k ≤ maxDays → off (start - k * DAY_US) = off start) :
    find_transition_backward off start maxDays = none := by
  have hscan := day_scan_backward_eq_none off (off start) maxDays start h
  simp only [find_transition_backward, hscan]

theorem step_off_forward (a b start T : ℤ) (maxDays : ℕ) (hab : a ≠ b)
    (h1 : start < T) (h2 : T ≤ start + maxDays * DAY_US) :
    ∃ c, find_transition_forward (step_off a b T) start maxDays = some c ∧
      c % MIN_US = 0 ∧ T - SEC_US < c ∧ c < T + MIN_US ∧
      (T % MIN_US = 0 → c = T) := by
  have hsa : step_off a b T start = a := by unfold step_off; rw [if_pos h1]
  have hbase : ∀ t, start ≤ t → t < T → step_off a b T t = step_off a b T start := by
    intro t ht1 ht2
    unfold step_off
    rw [if_pos ht2, if_pos h1]
  have hdiff : ∀ t, T ≤ t → t ≤ start + maxDays * DAY_US →
      step_off a b T t ≠ step_off a b T start := by
    intro t ht1 ht2
    unfold step_off
    rw [if_neg (by omega), if_pos h1]
    exact fun hcon => hab hcon.symm
  exact find_transition_forward_spec (step_off a b T) start T maxDays h1 h2 hbase hdiff

theorem step_off_backward (a b start T : ℤ) (maxDays : ℕ) (hab : a ≠ b)
    (h1 : T ≤ start) (h2 : start - maxDays * DAY_US < T) :
    ∃ c, find_transition_backward (step_off a b T) start maxDays = some c ∧
      c % MIN_US = 0 ∧ T - 2 * SEC_US < c ∧ c < T + MIN_US ∧
      (T % MIN_US = 0 → c = T) := by
  have hsb : step_off a b T start = b := by unfold step_off; rw [if_neg (by omega)]
  have hdiff : ∀ t, start - maxDays * DAY_US ≤ t → t < T →
      step_off a b T t ≠ step_off a b T start := by
    intro t ht1 ht2
    unfold step_off
    rw [if_pos ht2, if_neg (by omega)]
    exact hab
  have hbase : ∀ t, T ≤ t → t ≤ start → step_off a b T t = step_off a b T start := by
    intro t ht1 ht2
    unfold step_off
    rw [if_neg (by omega), if_neg (by omega)]
  exact find_transition_backward_spec (step_off a b T) start T maxDays h1 h2 hdiff hbase

theorem forward_off3_zero : find_transition_forward off3 0 400 = some DAY_US := by
  have hbase : ∀ t, (0:ℤ) ≤ t → t < DAY_US → off3 t = off3 0 := by
    intro t ht1 ht2
    unfold off3
    rw [if_pos ht2, if_pos (by decide)]
  have hdiff : ∀ t, DAY_US ≤ t → t ≤ 0 + (400:ℕ) * DAY_US → off3 t ≠ off3 0 := by
    intro t ht1 ht2
    unfold off3
    rw [if_neg (show ¬t < DAY_US by omega), if_pos (show (0:ℤ) < DAY_US by decide)]
    split <;> omega
  obtain ⟨c, hc, _, _, _, hex⟩ := find_transition_forward_spec off3 0 DAY_US 400
    (by decide) (by decide) hbase hdiff
  rw [hex (by decide)] at hc
  exact hc

theorem backward_off3_zero : find_transition_backward off3 0 400 = none := by
  apply find_transition_backward_eq_none_of
  intro k hk1 hk2
  have hk : (0:ℤ) ≤ (k : ℤ) * DAY_US := mul_nonneg (by positivity) (by decide)
  have hDg : (0:ℤ) < DAY_US := by decide
  unfold off3
  rw [if_pos (by omega), if_pos (by decide)]

theorem forward_off3_day : find_transition_forward off3 (DAY_US + MIN_US) 400 =
    some (2 * DAY_US) := by
  have hM : (0:ℤ) < MIN_US := by decide
  have hbase : ∀ t, DAY_US + MIN_US ≤ t → t < 2 * DAY_US → off3 t = off3 (DAY_US + MIN_US) := by
    intro t ht1 ht2
    unfold off3
    rw [if_neg (by omega), if_pos ht2, if_neg (by omega), if_pos (by decide)]
  have hdiff : ∀ t, 2 * DAY_US ≤ t → t ≤ DAY_US + MIN_US + (400:ℕ) * DAY_US →
      off3 t ≠ off3 (DAY_US + MIN_US) := by
    intro t ht1 ht2
    have hDg : (0:ℤ) < DAY_US := by decide
    unfold off3
    rw [if_neg (show ¬t < DAY_US by omega), if_neg (show ¬t < 2 * DAY_US by omega),
      if_neg (show ¬DAY_US + MIN_US < DAY_US by omega),
      if_pos (show DAY_US + MIN_US < 2 * DAY_US by decide)]
    omega
  obtain ⟨c, hc, _, _, _, hex⟩ := find_transition_forward_spec off3 (DAY_US + MIN_US)
    (2 * DAY_US) 400 (by decide) (by decide) hbase hdiff
  rw [hex (by decide)] at hc
  exact hc

theorem recalc3_attrs : recalc_and_write off3 dst3 0 =
    { dst_in_effect := false, season_start := none, season_end := none,
      next_start := some DAY_US, next_end := some (2 * DAY_US),
      next_change := some DAY_US, next_state := some "on" } := by
  have hdst0 : is_dst dst3 0 = false := by decide
  have hdstDM : is_dst dst3 (DAY_US + MIN_US) = true := by decide
  simp only [recalc_and_write, backward_off3_zero, forward_off3_zero, hdst0, hdstDM,
    Option.map_some', Option.map_none']
  simp
  exact ⟨forward_off3_day, rfl⟩

/-- C1 counterexample: the claim quantifies over every offset function, but
an offset excursion that starts and ends strictly inside one day is
invisible to the whole-day coarse scan: `off_dip` differs from its value at
the start at instant `HOUR_US`, strictly after the start and well inside
the 400-day horizon, yet the forward search reports not-found. -/
theorem claim_C1_counterexample :
    find_transition_forward off_dip 0 400 = none ∧
    off_dip HOUR_US ≠ off_dip 0 ∧ (0:ℤ) < HOUR_US ∧
    HOUR_US ≤ 0 + (400:ℕ) * DAY_US := by
  refine ⟨?_, by decide, by decide, by decide⟩
  apply find_transition_forward_eq_none_of
  intro k hk1 hk2
  have hk : (1:ℤ) ≤ (k:ℤ) := by exact_mod_cast hk1
  have hkD : DAY_US ≤ (k:ℤ) * DAY_US := by
    calc DAY_US = 1 * DAY_US := by ring
    _ ≤ (k:ℤ) * DAY_US := mul_le_mul_of_nonneg_right hk (by decide)
  have h2H : 2 * HOUR_US < DAY_US := by decide
  unfold off_dip
  rw [if_neg (show ¬(HOUR_US ≤ 0 + (k:ℤ) * DAY_US ∧ 0 + (k:ℤ) * DAY_US < 2 * HOUR_US) by
        omega),
    if_neg (show ¬(HOUR_US ≤ (0:ℤ) ∧ (0:ℤ) < 2 * HOUR_US) by decide)]

/-- C1 (amended): for a two-regime step offset function — one constant
value strictly before a single transition instant `T`, a different constant
from `T` on — with `T` strictly after `start` and within the `max_days`
horizon, the forward search returns a minute-aligned instant within one
minute of `T`. -/
theorem claim_C1 (a b start T : ℤ) (maxDays : ℕ) (hab : a ≠ b)
    (h1 : start < T) (h2 : T ≤ start + maxDays * DAY_US) :
    ∃ c, find_transition_forward (step_off a b T) start maxDays = some c ∧
      c % MIN_US = 0 ∧ T - MIN_US < c ∧ c < T + MIN_US := by
  obtain ⟨c, hc, hm, hl, hu, _⟩ := step_off_forward a b start T maxDays hab h1 h2
  have hsm : SEC_US < MIN_US := by decide
  exact ⟨c, hc, hm, by omega, hu⟩

/-- C1 witness: the amended claim applied to the step function jumping
from offset 0 to offset 1 exactly one day after the epoch. -/
theorem claim_C1_witness :
    ((0:ℤ) ≠ 1 ∧ (0:ℤ) < DAY_US ∧ DAY_US ≤ 0 + (400:ℕ) * DAY_US) ∧
    (∃ c, find_transition_forward (step_off 0 1 DAY_US) 0 400 = some c ∧
      c % MIN_US = 0 ∧ DAY_US - MIN_US < c ∧ c < DAY_US + MIN_US) :=
  ⟨⟨by decide, by decide, by decide⟩,
   claim_C1 0 1 0 DAY_US 400 (by decide) (by decide) (by decide)⟩

/-- C2 counterexample: the claim quantifies over every point strictly after
the found transition, but from a point more than 400 days past the
transition the backward day scan exhausts its horizon and reports
not-found instead of the transition. -/
theorem claim_C2_counterexample :
    find_transition_forward (step_off 0 1 DAY_US) 0 400 = some DAY_US ∧
    DAY_US < 402 * DAY_US ∧
    find_transition_backward (step_off 0 1 DAY_US) (402 * DAY_US) 400 = none := by
  refine ⟨?_, by decide, ?_⟩
  · obtain ⟨c, hc, _, _, _, hex⟩ := step_off_forward 0 1 0 DAY_US 400
      (by decide) (by decide) (by decide)
    rw [hex (by decide)] at hc
    exact hc
  · apply find_transition_backward_eq_none_of
    intro k hk1 hk2
    have hk : (k:ℤ) ≤ 400 := by exact_mod_cast hk2
    have hkD : (k:ℤ) * DAY_US ≤ 400 * DAY_US :=
      mul_le_mul_of_nonneg_right hk (by decide)
    have hD : (0:ℤ) < DAY_US := by decide
    unfold step_off
    rw [if_neg (show ¬(402 * DAY_US - (k:ℤ) * DAY_US < DAY_US) by omega),
      if_neg (show ¬((402:ℤ) * DAY_US < DAY_US) by decide)]

/-- C2 (amended): for a two-regime step offset function with transition
`T` inside the forward horizon of `start`, and any probe point `p` at or
after `T` and less than 400 days after it, the forward search from `start`
and the backward search from `p` both succeed and agree to within one
minute. -/
theorem claim_C2 (a b start T p : ℤ) (hab : a ≠ b)
    (h1 : start < T) (h2 : T ≤ start + (400:ℕ) * DAY_US)
    (h3 : T ≤ p) (h4 : p - (400:ℕ) * DAY_US < T) :
    ∃ c cb, find_transition_forward (step_off a b T) start 400 = some c ∧
      find_transition_backward (step_off a b T) p 400 = some cb ∧
      |c - cb| ≤ MIN_US := by
  obtain ⟨c, hc, hm, hl, hu, _⟩ := step_off_forward a b start T 400 hab h1 h2
  obtain ⟨cb, hcb, hbm, hbl, hbu, _⟩ := step_off_backward a b p T 400 hab h3 h4
  refine ⟨c, cb, hc, hcb, ?_⟩
  simp only [MIN_US, SEC_US] at hm hl hu hbm hbl hbu ⊢
  rw [abs_le]
  constructor <;> omega

/-- C2 witness: forward from the epoch and backward from the transition
instant itself, for the step function switching one day after the epoch. -/
theorem claim_C2_witness :
    ((0:ℤ) ≠ 1 ∧ (0:ℤ) < DAY_US ∧ DAY_US ≤ 0 + (400:ℕ) * DAY_US ∧
      DAY_US ≤ DAY_US ∧ DAY_US - (400:ℕ) * DAY_US < DAY_US) ∧
    (∃ c cb, find_transition_forward (step_off 0 1 DAY_US) 0 400 = some c ∧
      find_transition_backward (step_off 0 1 DAY_US) DAY_US 400 = some cb ∧
      |c - cb| ≤ MIN_US) :=
  ⟨⟨by decide, by decide, by decide, by decide, by decide⟩,
   claim_C2 0 1 0 DAY_US DAY_US (by decide) (by decide) (by decide)
     (by decide) (by decide)⟩

/-- C3: an offset function constant over the searched window makes both
searches report not-found (`none`) after exhausting the day scan; being
total Lean functions they cannot raise. -/
theorem claim_C3 (off : ℤ → ℤ) (start : ℤ) (maxDays : ℕ)
    (hconst : ∀ t, start - maxDays * DAY_US ≤ t → t ≤ start + maxDays * DAY_US →
      off t = off start) :
    find_transition_forward off start maxDays = none ∧
    find_transition_backward off start maxDays = none := by
  have hD : (0:ℤ) ≤ DAY_US := by decide
  have hmd : (0:ℤ) ≤ (maxDays : ℤ) * DAY_US := mul_nonneg (by positivity) hD
  constructor
  · apply find_transition_forward_eq_none_of
    intro k hk1 hk2
    have hkd : (0:ℤ) ≤ (k : ℤ) * DAY_US := mul_nonneg (by positivity) hD
    have hkm : (k:ℤ) ≤ (maxDays : ℤ) := by exact_mod_cast hk2
    have hkD : (k:ℤ) * DAY_US ≤ (maxDays : ℤ) * DAY_US :=
      mul_le_mul_of_nonneg_right hkm hD
    exact hconst _ (by omega) (by omega)
  · apply find_transition_backward_eq_none_of
    intro k hk1 hk2
    have hkd : (0:ℤ) ≤ (k : ℤ) * DAY_US := mul_nonneg (by positivity) hD
    have hkm : (k:ℤ) ≤ (maxDays : ℤ) := by exact_mod_cast hk2
    have hkD : (k:ℤ) * DAY_US ≤ (maxDays : ℤ) * DAY_US :=
      mul_le_mul_of_nonneg_right hkm hD
    exact hconst _ (by omega) (by omega)

/-- C3 witness: the constant offset function. -/
theorem claim_C3_witness :
    (∀ t : ℤ, (0:ℤ) - (400:ℕ) * DAY_US ≤ t → t ≤ 0 + (400:ℕ) * DAY_US →
      (fun _ : ℤ => (5:ℤ)) t = (fun _ : ℤ => (5:ℤ)) 0) ∧
    (find_transition_forward (fun _ : ℤ => (5:ℤ)) 0 400 = none ∧
      find_transition_backward (fun _ : ℤ => (5:ℤ)) 0 400 = none) :=
  ⟨fun _ _ _ => rfl, claim_C3 (fun _ => 5) 0 400 (fun _ _ _ => rfl)⟩

theorem round_to_minute_fields (x : ℤ) :
    second_of (round_to_minute x) = 0 ∧ microsecond_of (round_to_minute x) = 0 := by
  unfold round_to_minute floor_to_second floor_to_minute second_of microsecond_of
  simp only [SEC_US, MIN_US]
  split_ifs with hs
  · omega
  · omega

/-- C4: every instant either search returns has zero seconds and zero
microseconds, by the shared minute-normalisation step. -/
theorem claim_C4 (off : ℤ → ℤ) (start : ℤ) (maxDays : ℕ) (c : ℤ) :
    (find_transition_forward off start maxDays = some c →
      second_of c = 0 ∧ microsecond_of c = 0) ∧
    (find_transition_backward off start maxDays = some c →
      second_of c = 0 ∧ microsecond_of c = 0) := by
  constructor
  · intro h
    cases hscan : day_scan_forward off (off start) maxDays start with
    | none => rw [find_transition_forward_eq_none_of] at h
              · exact absurd h (by simp)
              · exact day_scan_forward_of_none off (off start) maxDays start hscan
    | some cursor =>
      simp only [find_transition_forward, hscan, Option.some.injEq] at h
      rw [← h]
      exact round_to_minute_fields _
  · intro h
    cases hscan : day_scan_backward off (off start) maxDays start with
    | none => rw [find_transition_backward_eq_none_of] at h
              · exact absurd h (by simp)
              · exact day_scan_backward_of_none off (off start) maxDays start hscan
    | some cursor =>
      simp only [find_transition_backward, hscan, Option.some.injEq] at h
      rw [← h]
      exact round_to_minute_fields _

/-- C4 witness: the forward search on `off3` from the epoch returns one
day, which is minute-aligned. -/
theorem claim_C4_witness :
    find_transition_forward off3 0 400 = some DAY_US ∧
    (second_of DAY_US = 0 ∧ microsecond_of DAY_US = 0) :=
  ⟨forward_off3_zero, (claim_C4 off3 0 400 DAY_US).1 forward_off3_zero⟩

/-- C5: both searches terminate (they are total functions) and the
instrumented variants, which compute the same results, perform at most
`max_days` day-scan probes plus one base evaluation plus a bounded number
of bisection probes: at most `max_days + 42` offset evaluations forward
and `max_days + 18` backward. -/
theorem claim_C5 (off : ℤ → ℤ) (start : ℤ) (maxDays : ℕ) :
    (find_transition_forward_cost off start maxDays).1 =
      find_transition_forward off start maxDays ∧
    (find_transition_forward_cost off start maxDays).2 ≤ maxDays + 42 ∧
    (find_transition_backward_cost off start maxDays).1 =
      find_transition_backward off start maxDays ∧
    (find_transition_backward_cost off start maxDays).2 ≤ maxDays + 18 := by
  obtain ⟨a, b⟩ := find_transition_forward_cost_spec off start maxDays
  obtain ⟨c, d⟩ := find_transition_backward_cost_spec off start maxDays
  exact ⟨a, b, c, d⟩

/-- C6: in the synthesised DST state, `next_change` always equals the
forward search from `now` (in both branches), and `next_state` is `"on"`
iff the DST predicate one minute after the found change is true, `"off"`
iff it is false, and absent iff no change was found. -/
theorem claim_C6 (off : ℤ → ℤ) (dstF : ℤ → Option ℤ) (now : ℤ) :
    (recalc_and_write off dstF now).next_change =
      find_transition_forward off now 400 ∧
    (recalc_and_write off dstF now).next_state =
      next_state_label ((find_transition_forward off now 400).map
        (fun ts => is_dst dstF (ts + MIN_US))) ∧
    ((recalc_and_write off dstF now).next_state = none ↔
      find_transition_forward off now 400 = none) ∧
    ((recalc_and_write off dstF now).next_state = some "on" ↔
      ∃ u, find_transition_forward off now 400 = some u ∧
        is_dst dstF (u + MIN_US) = true) ∧
    ((recalc_and_write off dstF now).next_state = some "off" ↔
      ∃ u, find_transition_forward off now 400 = some u ∧
        is_dst dstF (u + MIN_US) = false) := by
  have l1 : next_state_label none = none := rfl
  have l2 : next_state_label (some true) = some "on" := rfl
  have l3 : next_state_label (some false) = some "off" := rfl
  have e1 : (recalc_and_write off dstF now).next_change =
      find_transition_forward off now 400 := by
    simp only [recalc_and_write]
    split_ifs <;> rfl
  have e2 : (recalc_and_write off dstF now).next_state =
      next_state_label ((find_transition_forward off now 400).map
        (fun ts => is_dst dstF (ts + MIN_US))) := by
    simp only [recalc_and_write]
    split_ifs <;> rfl
  refine ⟨e1, e2, ?_, ?_, ?_⟩
  · rw [e2]
    cases hf : find_transition_forward off now 400 with
    | none => rw [Option.map_none', l1]; simp
    | some u =>
      rw [Option.map_some']
      cases hb : is_dst dstF (u + MIN_US)
      · rw [l3]; simp
      · rw [l2]; simp
  · rw [e2]
    cases hf : find_transition_forward off now 400 with
    | none => rw [Option.map_none', l1]; simp
    | some u =>
      rw [Option.map_some']
      cases hb : is_dst dstF (u + MIN_US)
      · rw [l3]
        simp only [Option.some.injEq]
        constructor
        · intro hcon; exact absurd hcon (by decide)
        · rintro ⟨u', hu', hb'⟩
          subst hu'
          rw [hb] at hb'
          exact absurd hb' (by decide)
      · rw [l2]
        simp only [Option.some.injEq]
        constructor
        · intro _; exact ⟨u, rfl, hb⟩
        · intro _; trivial
  · rw [e2]
    cases hf : find_transition_forward off now 400 with
    | none => rw [Option.map_none', l1]; simp
    | some u =>
      rw [Option.map_some']
      cases hb : is_dst dstF (u + MIN_US)
      · rw [l3]
        simp only [Option.some.injEq]
        constructor
        · intro _; exact ⟨u, rfl, hb⟩
        · intro _; trivial
      · rw [l2]
        simp only [Option.some.injEq]
        constructor
        · intro hcon; exact absurd hcon (by decide)
        · rintro ⟨u', hu', hb'⟩
          subst hu'
          rw [hb] at hb'
          exact absurd hb' (by decide)

theorem utcoffset_str_whole_minute (o : ℤ) (h : o % MIN_US = 0) :
    ∃ sign hh mm, utcoffset_str o = sign ++ two_digits hh ++ ":" ++ two_digits mm := by
  have h6 : o.natAbs % 60000000 = 0 := by
    simp only [MIN_US] at h
    omega
  have h1 : o.natAbs % 1000000 = 0 := by omega
  refine ⟨if o < 0 then "-" else "+", o.natAbs / 3600000000,
    o.natAbs / 60000000 % 60, ?_⟩
  simp only [utcoffset_str]
  rw [if_neg (show ¬o.natAbs % 60000000 ≠ 0 by omega),
    if_neg (show ¬o.natAbs % 1000000 ≠ 0 by omega)]
  simp

theorem iso_minutes_ne_empty (off : ℤ → ℤ) (t : ℤ) : iso_minutes off t ≠ "" := by
  unfold iso_minutes
  intro h
  have hlen := congrArg String.length h
  have hd : ("-" : String).length = 1 := rfl
  have ht : ("T" : String).length = 1 := rfl
  have hc : (":" : String).length = 1 := rfl
  simp only [String.length_append, hd, ht, hc] at hlen
  have he : ("" : String).length = 0 := rfl
  rw [he] at hlen
  omega

/-- C7: serialisation of a present timestamp yields a non-empty ISO string
that depends only on the timestamp's minute and its UTC offset (so the
sub-minute part is dropped), ends with the rendered UTC offset, and for a
whole-minute offset that rendering is sign, hours and minutes only; an
absent timestamp serialises to the explicit `none` marker, never to an
empty string. -/
theorem claim_C7 (off : ℤ → ℤ) (t t' : ℤ) :
    serialize_dt off none = none ∧
    (∃ s, serialize_dt off (some t) = some s ∧ s ≠ "") ∧
    (t / MIN_US = t' / MIN_US → off t = off t' →
      serialize_dt off (some t) = serialize_dt off (some t')) ∧
    (∃ p, serialize_dt off (some t) = some (p ++ utcoffset_str (off t))) ∧
    ((off t) % MIN_US = 0 →
      ∃ sign hh mm, utcoffset_str (off t) =
        sign ++ two_digits hh ++ ":" ++ two_digits mm) := by
  refine ⟨rfl, ⟨iso_minutes off t, rfl, iso_minutes_ne_empty off t⟩, ?_, ⟨_, rfl⟩, ?_⟩
  · intro h1 h2
    simp only [serialize_dt, iso_minutes]
    rw [h1, h2]
  · intro h
    exact utcoffset_str_whole_minute (off t) h

/-- C7 witness: the zero-offset function, with two instants in the same
minute, discharges the sub-minute-invariance and whole-minute-offset
hypotheses. -/
theorem claim_C7_witness :
    ((30000000:ℤ) / MIN_US = (0:ℤ) / MIN_US ∧
      ((fun _ : ℤ => (0:ℤ)) (30000000:ℤ)) % MIN_US = 0) ∧
    serialize_dt (fun _ : ℤ => (0:ℤ)) (some 30000000) =
      serialize_dt (fun _ : ℤ => (0:ℤ)) (some 0) ∧
    (∃ sign hh mm, utcoffset_str ((fun _ : ℤ => (0:ℤ)) (30000000:ℤ)) =
      sign ++ two_digits hh ++ ":" ++ two_digits mm) :=
  ⟨⟨by decide, by decide⟩,
   (claim_C7 (fun _ => 0) 30000000 0).2.2.1 (by decide) rfl,
   (claim_C7 (fun _ => 0) 30000000 0).2.2.2.2 (by decide)⟩

/-- C8: whenever the published `next_end` is present, `next_start` is also
present: in both branches `next_end` is computed only by searching forward
from an already-found `next_start`. -/
theorem claim_C8 (off : ℤ → ℤ) (dstF : ℤ → Option ℤ) (now : ℤ) :
    (recalc_and_write off dstF now).next_end.isSome = true →
    (recalc_and_write off dstF now).next_start.isSome = true := by
  cases hnc : find_transition_forward off now 400 with
  | none =>
    simp only [recalc_and_write, hnc, Option.map_none']
    split_ifs <;> simp
  | some se =>
    cases hns : find_transition_forward off (se + MIN_US) 400 with
    | none =>
      simp only [recalc_and_write, hnc, hns, Option.map_some']
      split_ifs <;> simp
    | some ns =>
      simp only [recalc_and_write, hnc, hns, Option.map_some']
      split_ifs <;> simp

/-- C8 witness: on `off3`/`dst3` from the epoch the synthesised state has
both `next_end` and `next_start` present. -/
theorem claim_C8_witness :
    (recalc_and_write off3 dst3 0).next_end.isSome = true ∧
    (recalc_and_write off3 dst3 0).next_start.isSome = true := by
  have h : (recalc_and_write off3 dst3 0).next_end.isSome = true := by
    rw [recalc3_attrs]
    rfl
  exact ⟨h, claim_C8 off3 dst3 0 h⟩

/-- C9: the DST predicate is a total Boolean function of the `dst()`
probe: it is false exactly when the probe reports no DST information or a
zero DST component, and true otherwise. -/
theorem claim_C9 (dstF : ℤ → Option ℤ) (ts : ℤ) :
    is_dst dstF ts = false ↔ dstF ts = none ∨ dstF ts = some 0 := by
  cases h : dstF ts with
  | none => simp [is_dst, h]
  | some o => simp [is_dst, h]

/-- C10: the weekday sensor is on iff the day-of-week index is below 5,
the weekend sensor is on iff it is 5 or above, and the two sensors
computed from the same instant are exact complements. -/
theorem claim_C10 (t : ℤ) :
    (weekday_sensor_on t = true ↔ weekday_of t < 5) ∧
    (weekend_sensor_on t = true ↔ 5 ≤ weekday_of t) ∧
    weekday_sensor_on t = !weekend_sensor_on t := by
  refine ⟨by simp [weekday_sensor_on], by simp [weekend_sensor_on], ?_⟩
  by_cases h : weekday_of t < 5
  · have h1 : ¬5 ≤ weekday_of t := by omega
    simp [weekday_sensor_on, weekend_sensor_on, h, h1]
  · have h1 : 5 ≤ weekday_of t := by omega
    simp [weekday_sensor_on, weekend_sensor_on, h, h1]

end WTime
